import Mathlib

/-!
Verification of the asset-discovery / checksum / formula-context core of the
`albertocavalcante/actions` repository (GitHub Actions written in TypeScript).

The TypeScript sources are shallowly embedded as executable Lean definitions:

* JavaScript strings are Lean `String`s; `toLowerCase` is modelled as ASCII
  lowering (`Char.toLower` mapped over the characters), which agrees with the
  JavaScript behaviour on all strings appearing in the static tables and in
  the platform-identifier domain of this code base.
* JavaScript objects used as string-keyed maps (`Assets`, `ChecksumResult`)
  are association lists in key-insertion order together with the JavaScript
  property-assignment semantics (`objInsert`): assigning to an existing key
  overwrites its value in place, assigning to a fresh key appends it.
* External collaborators (the `fetch` network calls, the filesystem, the
  crypto digest, the URL parser, the clock) are parameters of the embedded
  functions: a function of type `String → Option String` stands for an async
  call that either produces a text or fails/misses.  Exceptions of `async`
  functions are modelled with `Except`/`Option` results.
-/

namespace Actions

/-! ## Generic string helpers shared by the actions -/

/-- ASCII lowering of one character, the behaviour of `String.toLowerCase`
on ASCII data (`Char.toLower` maps `A`–`Z` to `a`–`z` and is the identity
otherwise). -/
def lowerChar (c : Char) : Char := Char.toLower c

/-- Model of JavaScript `s.toLowerCase()` (ASCII fragment). -/
def toLowerStr (s : String) : String := ⟨s.data.map lowerChar⟩

/-- Model of JavaScript `s.includes(sub)`: `sub` occurs as a contiguous
substring of `s`. -/
def containsStr (s sub : String) : Bool :=
  s.data.tails.any (fun t => sub.data.isPrefixOf t)

/-- Model of JavaScript `s.endsWith(suffix)` (equivalently, a `…$`-anchored
regular-expression suffix test): the reversed suffix is a prefix of the
reversed string. -/
def endsWithStr (s suffix : String) : Bool :=
  suffix.data.reverse.isPrefixOf s.data.reverse

/-- Model of JavaScript `s.startsWith(p)`. -/
def startsWithStr (s p : String) : Bool :=
  p.data.isPrefixOf s.data

/-- Model of Node `path.basename` on POSIX paths: drop trailing slashes,
then keep the part after the last remaining slash.  (The degenerate
root-path inputs `"/"`, `""` do not occur in this code base.) -/
def basename (s : String) : String :=
  ⟨((s.data.reverse.dropWhile (fun c => c = '/')).takeWhile (fun c => c ≠ '/')).reverse⟩

/-- Model of JavaScript `s.trim()`: strip leading and trailing whitespace. -/
def trimStr (s : String) : String :=
  ⟨((s.data.dropWhile Char.isWhitespace).reverse.dropWhile Char.isWhitespace).reverse⟩

/-- Character class of the regular expression `[a-f0-9]` under the `/i`
flag: a hexadecimal digit in either case. -/
def isHexChar (c : Char) : Bool :=
  ('0' ≤ c && c ≤ '9') || ('a' ≤ c && c ≤ 'f') || ('A' ≤ c && c ≤ 'F')

/-- JavaScript property assignment `m[k] = v` on an object in key-insertion
order: overwrite the value in place if the key is present (keys of a
JavaScript object are unique, so at most one entry carries `k`), append
otherwise. -/
def objInsert (m : List (String × α)) (k : String) (v : α) : List (String × α) :=
  match m with
  | [] => [(k, v)]
  | p :: rest => if p.1 = k then (k, v) :: rest else p :: objInsert rest k v

/-- JavaScript property read `m[k]` on an object represented as an
association list (keys are unique, so first match is the match). -/
def lookupKey (k : String) (m : List (String × α)) : Option α :=
  (m.find? (fun p => p.1 = k)).map (fun p => p.2)

/-! ## Platform Normalizer (`update-homebrew-tap/src/types.ts`) -/

/-- Source table `PLATFORM_ALIASES` of `update-homebrew-tap/src/types.ts`,
in source order. -/
def PLATFORM_ALIASES : List (String × String) :=
  [ ("darwin-aarch64", "darwin-arm64")
  , ("darwin-x86_64", "darwin-x64")
  , ("darwin-amd64", "darwin-x64")
  , ("macos-arm64", "darwin-arm64")
  , ("macos-x64", "darwin-x64")
  , ("macos-amd64", "darwin-x64")
  , ("linux-aarch64", "linux-arm64")
  , ("linux-x86_64", "linux-x64")
  , ("linux-amd64", "linux-x64") ]

/-- Source `normalizePlatform`: `PLATFORM_ALIASES[platform.toLowerCase()] ||
platform.toLowerCase()` (every alias value is a non-empty string, so the
JavaScript `||` fallback fires exactly when the lookup misses). -/
def normalizePlatform (platform : String) : String :=
  match lookupKey (toLowerStr platform) PLATFORM_ALIASES with
  | some a => a
  | none => toLowerStr platform

/-! ## Checksum Resolver: shared sidecar-content parsing

The actions all parse a sidecar checksum text with
`content.trim().match(/^([a-f0-9]{64})/i)` followed by `.toLowerCase()` on
the captured group: the trimmed content must start with (at least) 64
hexadecimal characters, and the first 64 of them, lower-cased, are the
result. -/

def parseSha256 (content : String) : Option String :=
  if ((trimStr content).data.take 64).length = 64 &&
      ((trimStr content).data.take 64).all isHexChar
  then some ⟨((trimStr content).data.take 64).map lowerChar⟩
  else none

/-- Source `fetchSha256` (`update-homebrew-tap`) and `fetchSha256FromUrl`
(`compute-checksums`): probe `url + ".sha256"` over the network; a non-2xx
response, a transport exception and malformed content all yield `undefined`.
The network is the oracle `httpText`: `none` covers both the non-ok
response and the thrown exception. -/
def fetchSha256 (httpText : String → Option String) (url : String) : Option String :=
  match httpText (url ++ ".sha256") with
  | none => none
  | some content => parseSha256 content

/-! ## `processAssets` (`update-homebrew-tap/src/types.ts` users) -/

/-- One downloadable artifact, source interface `AssetInfo`. -/
structure AssetInfo where
  url : String
  sha256 : Option String
  filename : Option String
deriving DecidableEq

/-- JavaScript falsiness of the optional string `info.sha256`:
`undefined` and `""` are falsy. -/
def isFalsyStr : Option String → Bool
  | none => true
  | some s => s = ""

/-- Guard of the source branch `if (!sha256 && info.url)`: a sidecar fetch
is attempted exactly when the incoming checksum is falsy and the url is
truthy (non-empty). -/
def entryFetches (info : AssetInfo) : Bool :=
  isFalsyStr info.sha256 && info.url ≠ ""

/-- Body of the `processAssets` loop for one asset: keep a truthy incoming
`sha256`; otherwise overwrite it with the sidecar-fetch result (which may
itself be `undefined`, leaving the checksum absent with a warning). -/
def resolveSha256 (httpText : String → Option String) (info : AssetInfo) : Option String :=
  if entryFetches info then fetchSha256 httpText info.url else info.sha256

/-- Tail-recursive rendering of the source `processAssets` loop, with the
accumulated object and the trace of sidecar-fetch urls attempted so far. -/
def processAssetsGo (httpText : String → Option String) :
    List (String × AssetInfo) → List (String × AssetInfo) → List String →
      List (String × AssetInfo) × List String
  | [], acc, tr => (acc, tr)
  | (platform, info) :: rest, acc, tr =>
      processAssetsGo httpText rest
        (objInsert acc (normalizePlatform platform) { info with sha256 := resolveSha256 httpText info })
        (if entryFetches info then tr ++ [info.url] else tr)

/-- Source `processAssets`: normalize every platform key and fill in missing
checksums, in input iteration order. -/
def processAssets (httpText : String → Option String)
    (rawAssets : List (String × AssetInfo)) : List (String × AssetInfo) :=
  (processAssetsGo httpText rawAssets [] []).1

/-- The urls for which `processAssets` attempted a sidecar fetch, in order. -/
def processAssetsTrace (httpText : String → Option String)
    (rawAssets : List (String × AssetInfo)) : List String :=
  (processAssetsGo httpText rawAssets [] []).2

/-! ## `compute-checksums` (`processUrls`, `processFiles`) -/

/-- Source `fetchSha256FromUrl` of the `compute-checksums` action: same
sidecar policy as `fetchSha256` (non-ok response and transport exception
both give `undefined`; otherwise the body text is parsed). -/
def fetchSha256FromUrl (httpText : String → Option String) (url : String) : Option String :=
  match httpText (url ++ ".sha256") with
  | none => none
  | some content => parseSha256 content

/-- External collaborators of `processUrls`: the network (`httpText` for
the sidecar probe), `downloadUrl` (either the downloaded buffer or the
thrown error message — a non-2xx status throws
`Failed to download …`), the crypto digest of a buffer for the selected
algorithm, and the `new URL(url).pathname` parser. -/
structure UrlEnv where
  httpText : String → Option String
  download : String → Except String (List Nat)
  hashBytes : List Nat → String
  urlPathname : String → String

/-- Source `processUrls` loop (`compute-checksums`): for each url, try the
sidecar first (when `read-sha256-files` is enabled); otherwise download the
content and hash it.  A throw of `downloadUrl` propagates out of the loop:
the whole batch is abandoned. -/
def processUrlsGo (env : UrlEnv) (ready : Bool) :
    List String → List (String × String) → Except String (List (String × String))
  | [], res => .ok res
  | url :: rest, res =>
      let filename := basename (env.urlPathname url)
      match (if ready then fetchSha256FromUrl env.httpText url else none) with
      | some h => processUrlsGo env ready rest (objInsert res filename h)
      | none =>
          match env.download url with
          | .ok buf => processUrlsGo env ready rest (objInsert res filename (env.hashBytes buf))
          | .error e => .error e

/-- Source `processUrls` entry point (empty result object at the start). -/
def processUrls (env : UrlEnv) (urls : List String) (ready : Bool) :
    Except String (List (String × String)) :=
  processUrlsGo env ready urls []

/-- External collaborators of `processFiles`: the filesystem read
(`fs.promises.readFile`, `none` = throw) and the streaming file digest
(`hashFile`; an error event rejects with the stream error message). -/
structure FileEnv where
  fsRead : String → Option String
  fileHash : String → Except String String

/-- Source `readSha256File` (`compute-checksums`): read `<filepath>.sha256`
from disk and parse it; any read error yields `undefined`. -/
def readSha256File (fsRead : String → Option String) (filepath : String) : Option String :=
  match fsRead (filepath ++ ".sha256") with
  | none => none
  | some content => parseSha256 content

/-- Source `processFiles` loop (`compute-checksums`): skip `.sha256` files,
prefer a readable sidecar hash, otherwise compute the digest of the file
(a stream error propagates and abandons the batch).  The second component
records the files whose digest was actually computed. -/
def processFilesGo (env : FileEnv) (ready : Bool) :
    List String → List (String × String) → List String →
      Except String (List (String × String) × List String)
  | [], res, tr => .ok (res, tr)
  | f :: rest, res, tr =>
      if endsWithStr f ".sha256" then processFilesGo env ready rest res tr
      else
        match (if ready then readSha256File env.fsRead f else none) with
        | some h => processFilesGo env ready rest (objInsert res (basename f) h) tr
        | none =>
            match env.fileHash f with
            | .ok h => processFilesGo env ready rest (objInsert res (basename f) h) (tr ++ [f])
            | .error e => .error e

/-- Source `processFiles` entry point. -/
def processFiles (env : FileEnv) (files : List String) (ready : Bool) :
    Except String (List (String × String) × List String) :=
  processFilesGo env ready files [] []


/-! Support lemmas for the normalizer. -/

/-! ## Context Builder (`update-homebrew-tap`, `buildContext`) -/

/-- Formula rendering context, source interface `FormulaContext`.  Optional
convenience accessors are `Option`-valued; the grouped lists keep the pair
shape `{ platform, asset }` of the source. -/
structure FormulaContext where
  name : String
  version : String
  versionClean : String
  description : String
  homepage : String
  license : String
  binaryName : String
  privateRepo : Bool
  assets : List (String × AssetInfo)
  darwinArm64 : Option AssetInfo
  darwinX64 : Option AssetInfo
  darwinAmd64 : Option AssetInfo
  linuxArm64 : Option AssetInfo
  linuxX64 : Option AssetInfo
  linuxAmd64 : Option AssetInfo
  macosAssets : List (String × AssetInfo)
  linuxAssets : List (String × AssetInfo)
deriving DecidableEq

/-- Model of `version.replace(/^v/, "")`: remove one leading lowercase `v`
if present. -/
def stripLeadingV (v : String) : String :=
  match v.data with
  | c :: rest => if c = 'v' then ⟨rest⟩ else v
  | [] => v

/-- Source `buildContext` of `update-homebrew-tap`: note that the returned
`version` field is `versionClean`, and that the `darwinAmd64`/`linuxAmd64`
fields are defined as aliases of the corresponding x64 lookups.
`binaryName || name` falls back on the empty string. -/
def buildContext (name version : String) (assets : List (String × AssetInfo))
    (description homepage license binaryName : String) (privateRepo : Bool) :
    FormulaContext :=
  { name := name
  , version := stripLeadingV version
  , versionClean := stripLeadingV version
  , description := description
  , homepage := homepage
  , license := license
  , binaryName := if binaryName = "" then name else binaryName
  , privateRepo := privateRepo
  , assets := assets
  , darwinArm64 := lookupKey "darwin-arm64" assets
  , darwinX64 := lookupKey "darwin-x64" assets
  , darwinAmd64 := lookupKey "darwin-x64" assets
  , linuxArm64 := lookupKey "linux-arm64" assets
  , linuxX64 := lookupKey "linux-x64" assets
  , linuxAmd64 := lookupKey "linux-x64" assets
  , macosAssets := assets.filter
      (fun p => startsWithStr p.1 "darwin-" || startsWithStr p.1 "macos-")
  , linuxAssets := assets.filter
      (fun p => !(startsWithStr p.1 "darwin-" || startsWithStr p.1 "macos-") &&
        startsWithStr p.1 "linux-") }

/-! ## Asset Classifier (`release-notes`, `detectPlatform` and friends) -/

/-- Static platform descriptor, source interface `Platform`. -/
structure Platform where
  id : String
  os : String
  osIcon : String
  arch : String
  archFull : String
  variant : Option String
  displayName : String
deriving DecidableEq

/-- One `Partial<Platform>` table entry (everything but the id). -/
structure PlatformData where
  os : String
  osIcon : String
  arch : String
  archFull : String
  variant : Option String
  displayName : String
deriving DecidableEq

/-- Spreading a table entry under its key: `{ id, ...platform }`. -/
def mkPlatform (id : String) (d : PlatformData) : Platform :=
  { id := id, os := d.os, osIcon := d.osIcon, arch := d.arch, archFull := d.archFull
  , variant := d.variant, displayName := d.displayName }

/-- Source table `PLATFORM_PATTERNS` in source (insertion) order — the
musl variant precedes plain `linux-amd64` so the more specific substring
is tried first. -/
def PLATFORM_PATTERNS : List (String × PlatformData) :=
  [ ("linux-amd64-musl",
      { os := "Linux", osIcon := "", arch := "x86_64", archFull := "x86_64 (64-bit, static)"
      , variant := some "musl", displayName := "Linux x86_64 (static)" })
  , ("linux-amd64",
      { os := "Linux", osIcon := "", arch := "x86_64", archFull := "x86_64 (64-bit)"
      , variant := none, displayName := "Linux x86_64" })
  , ("linux-aarch64",
      { os := "Linux", osIcon := "", arch := "aarch64", archFull := "ARM64"
      , variant := none, displayName := "Linux ARM64" })
  , ("linux-arm64",
      { os := "Linux", osIcon := "", arch := "arm64", archFull := "ARM64"
      , variant := none, displayName := "Linux ARM64" })
  , ("darwin-arm64",
      { os := "macOS", osIcon := "", arch := "arm64", archFull := "Apple Silicon (M1/M2/M3/M4)"
      , variant := none, displayName := "macOS Apple Silicon" })
  , ("darwin-amd64",
      { os := "macOS", osIcon := "", arch := "x86_64", archFull := "Intel (64-bit)"
      , variant := none, displayName := "macOS Intel" })
  , ("windows-amd64",
      { os := "Windows", osIcon := "", arch := "x86_64", archFull := "x86_64 (64-bit)"
      , variant := none, displayName := "Windows x86_64" })
  , ("windows-aarch64",
      { os := "Windows", osIcon := "", arch := "arm64", archFull := "ARM64"
      , variant := none, displayName := "Windows ARM64" }) ]

/-- Source table `DEB_ARCH_MAP`. -/
def DEB_ARCH_MAP : List (String × String) :=
  [("amd64", "linux-amd64"), ("arm64", "linux-aarch64")]

/-- Source table `RPM_ARCH_MAP`. -/
def RPM_ARCH_MAP : List (String × String) :=
  [("x86_64", "linux-amd64"), ("aarch64", "linux-aarch64")]

/-- Character class `[a-z0-9]` of the DEB suffix pattern. -/
def isDebArchChar (c : Char) : Bool :=
  ('a' ≤ c && c ≤ 'z') || ('0' ≤ c && c ≤ '9')

/-- Character class `[a-z0-9_]` of the RPM suffix pattern. -/
def isRpmArchChar (c : Char) : Bool :=
  isDebArchChar c || c = '_'

/-- Capture of `basename.match(/_([a-z0-9]+)\.deb$/)`: because the capture
class excludes the delimiter `_`, the regex match (leftmost `_` whose
following run reaches `.deb$`) is exactly the maximal `[a-z0-9]` run
adjacent to the `.deb` suffix, provided it is non-empty and preceded by
`_`. -/
def debArchOf (b : String) : Option String :=
  if endsWithStr b ".deb" then
    let rev := b.data.reverse.drop 4
    let arch := rev.takeWhile isDebArchChar
    if arch ≠ [] ∧ (rev.drop arch.length).head? = some '_'
    then some ⟨arch.reverse⟩ else none
  else none

/-- Capture of `basename.match(/\.([a-z0-9_]+)\.rpm$/)`, analogously with
delimiter `.` and the `[a-z0-9_]` class. -/
def rpmArchOf (b : String) : Option String :=
  if endsWithStr b ".rpm" then
    let rev := b.data.reverse.drop 4
    let arch := rev.takeWhile isRpmArchChar
    if arch ≠ [] ∧ (rev.drop arch.length).head? = some '.'
    then some ⟨arch.reverse⟩ else none
  else none

/-- DEB branch of `detectPlatform`: returns a platform only when the arch
capture, the `DEB_ARCH_MAP` lookup and the `PLATFORM_PATTERNS` lookup all
succeed (otherwise the source falls through). -/
def debDetect (b : String) : Option Platform :=
  match debArchOf b with
  | some arch =>
      match lookupKey arch DEB_ARCH_MAP with
      | some pid =>
          match lookupKey pid PLATFORM_PATTERNS with
          | some d => some (mkPlatform pid d)
          | none => none
      | none => none
  | none => none

/-- RPM branch of `detectPlatform`. -/
def rpmDetect (b : String) : Option Platform :=
  match rpmArchOf b with
  | some arch =>
      match lookupKey arch RPM_ARCH_MAP with
      | some pid =>
          match lookupKey pid PLATFORM_PATTERNS with
          | some d => some (mkPlatform pid d)
          | none => none
      | none => none
  | none => none

/-- Source `detectPlatform` (the unused `_projectName` parameter is
omitted): first direct substring match against the pattern table in table
order, then the DEB suffix convention, then the RPM one. -/
def detectPlatform (filename : String) : Option Platform :=
  match PLATFORM_PATTERNS.find? (fun q => containsStr (basename filename) q.1) with
  | some q => some (mkPlatform q.1 q.2)
  | none =>
      match debDetect (basename filename) with
      | some p => some p
      | none => rpmDetect (basename filename)

/-- Asset package type, source union `"binary" | "deb" | "rpm"`. -/
inductive AssetType
  | binary
  | deb
  | rpm
deriving DecidableEq

/-- Source `getAssetType`. -/
def getAssetType (filename : String) : AssetType :=
  if endsWithStr filename ".deb" then AssetType.deb
  else if endsWithStr filename ".rpm" then AssetType.rpm
  else AssetType.binary

/-- Model of Node `path.extname` (on inputs of this code base): the part of
the basename from its last dot, or `""` when there is no dot or the only
dot is the leading one of a hidden file. -/
def extname (s : String) : String :=
  let b := (basename s).data
  let tail := b.reverse.takeWhile (fun c => c ≠ '.')
  if tail.length = b.length then ""
  else if b.length = tail.length + 1 ∧ b.head? = some '.' then ""
  else ⟨'.' :: tail.reverse⟩

/-- Source `getExtension`: compound `.tar.gz` / `.tar.xz` extensions are
one unit; otherwise `path.extname` with the leading dot removed. -/
def getExtension (filename : String) : String :=
  if endsWithStr filename ".tar.gz" then "tar.gz"
  else if endsWithStr filename ".tar.xz" then "tar.xz"
  else
    let ext := extname filename
    if startsWithStr ext "." then ⟨ext.data.drop 1⟩ else ext

/-- One discovered release asset, source interface `Asset`. -/
structure Asset where
  filename : String
  platform : Platform
  type : AssetType
  extension : String
  size : Option Nat
  sha256 : Option String
deriving DecidableEq

/-- External collaborators of `discoverAssets`: the file sizes
(`fs.promises.stat`, `none` = throw) and the filesystem read used by its
`readSha256`. -/
structure FsEnv where
  sizeOf : String → Option Nat
  fsRead : String → Option String

/-- Source `readSha256` of `release-notes` (same body as `readSha256File`
of `compute-checksums`). -/
def readSha256 (fsRead : String → Option String) (assetPath : String) : Option String :=
  match fsRead (assetPath ++ ".sha256") with
  | none => none
  | some content => parseSha256 content

/-- Loop body of `discoverAssets` for one globbed filepath: skip sidecar
files, skip files with no detected platform (with a warning), otherwise
assemble the `Asset`. -/
def mkDiscoveredAsset (env : FsEnv) (filepath : String) : Option Asset :=
  if endsWithStr filepath ".sha256" then none
  else
    match detectPlatform (basename filepath) with
    | none => none
    | some platform =>
        some { filename := basename filepath
             , platform := platform
             , type := getAssetType (basename filepath)
             , extension := getExtension (basename filepath)
             , size := env.sizeOf filepath
             , sha256 := readSha256 env.fsRead filepath }

/-- Source `platformOrder`, the fixed display order. -/
def platformOrder : List String :=
  ["linux-amd64", "linux-amd64-musl", "linux-aarch64",
   "darwin-arm64", "darwin-amd64", "windows-amd64"]

/-- Index of an id in `platformOrder`, with the source's `indexOf === -1 ?
999 : index` sentinel. -/
def rankGo (id : String) : List String → Nat → Nat
  | [], _ => 999
  | k :: rest, i => if k = id then i else rankGo id rest (i + 1)

/-- Sort key of the comparator `(a, b) => rankOf a - rankOf b`. -/
def rankOf (id : String) : Nat := rankGo id platformOrder 0

/-- Rank of one asset by its platform id. -/
def assetRank (a : Asset) : Nat := rankOf a.platform.id

/-- Stable insertion of `x` into an already processed suffix: `x` goes
before the first element of not-smaller rank (elements later in discovery
order are inserted first by `sortByPlatform`, so ties keep discovery
order). -/
def insSorted (x : Asset) : List Asset → List Asset
  | [] => [x]
  | y :: ys => if assetRank y < assetRank x then y :: insSorted x ys else x :: y :: ys

/-- Model of `assets.sort((a, b) => rank a - rank b)`:
`Array.prototype.sort` is stable (ECMAScript 2019, the Node baseline of
these actions), and a stable sort under a total preorder has a unique
result, realized here as a stable insertion sort. -/
def sortByPlatform (l : List Asset) : List Asset := l.foldr insSorted []

/-- Assets assembled from the globbed files, in discovery order, before
sorting. -/
def discoverAssetsPre (env : FsEnv) (files : List String) : List Asset :=
  files.filterMap (mkDiscoveredAsset env)

/-- Source `discoverAssets` applied to the glob result `files` (the glob
itself is the external filesystem). -/
def discoverAssets (env : FsEnv) (files : List String) : List Asset :=
  sortByPlatform (discoverAssetsPre env files)

/-! ## Context Builder (`release-notes`, `buildContext`) -/

/-- Source interface `InstallMethod`. -/
structure InstallMethod where
  name : String
  command : String
  note : Option String
deriving DecidableEq

/-- Source interface `InstallCommand`. -/
structure InstallCommand where
  os : String
  icon : String
  methods : List InstallMethod
deriving DecidableEq

/-- Source `generateInstallCommands`: fixed command templates interpolated
with version, project name and repository. -/
def generateInstallCommands (version projectName repository : String) :
    List InstallCommand :=
  [ { os := "Linux", icon := ""
    , methods :=
        [ { name := "Shell (x86_64)"
          , command := "curl -fsSL https://github.com/" ++ repository ++
              "/releases/download/" ++ version ++ "/" ++ projectName ++
              "-linux-amd64.tar.gz | tar xz\nsudo mv " ++ projectName ++ " /usr/local/bin/"
          , note := none }
        , { name := "Shell (ARM64)"
          , command := "curl -fsSL https://github.com/" ++ repository ++
              "/releases/download/" ++ version ++ "/" ++ projectName ++
              "-linux-aarch64.tar.gz | tar xz\nsudo mv " ++ projectName ++ " /usr/local/bin/"
          , note := none } ] }
  , { os := "macOS", icon := ""
    , methods :=
        [ { name := "Homebrew"
          , command :=
              if version = "nightly" || containsStr version "nightly"
              then "brew install albertocavalcante/tap/" ++ projectName ++ "-nightly"
              else "brew install albertocavalcante/tap/" ++ projectName
          , note := none }
        , { name := "Shell (Apple Silicon)"
          , command := "curl -fsSL https://github.com/" ++ repository ++
              "/releases/download/" ++ version ++ "/" ++ projectName ++
              "-darwin-arm64.tar.gz | tar xz\nsudo mv " ++ projectName ++ " /usr/local/bin/"
          , note := none }
        , { name := "Shell (Intel)"
          , command := "curl -fsSL https://github.com/" ++ repository ++
              "/releases/download/" ++ version ++ "/" ++ projectName ++
              "-darwin-amd64.tar.gz | tar xz\nsudo mv " ++ projectName ++ " /usr/local/bin/"
          , note := none } ] }
  , { os := "Windows", icon := ""
    , methods :=
        [ { name := "PowerShell"
          , command := "Invoke-WebRequest -Uri \"https://github.com/" ++ repository ++
              "/releases/download/" ++ version ++ "/" ++ projectName ++
              "-windows-amd64.zip\" -OutFile \"" ++ projectName ++
              ".zip\"\nExpand-Archive -Path \"" ++ projectName ++
              ".zip\" -DestinationPath .\nMove-Item -Path \".\\" ++ projectName ++
              ".exe\" -Destination \"$env:LOCALAPPDATA\\Microsoft\\WindowsApps\\\""
          , note := none } ] } ]

/-- Release rendering context, source interface `ReleaseContext`.  The
`buildStatus` values are kept as raw strings (the source casts parsed JSON
unchecked). -/
structure ReleaseContext where
  version : String
  versionClean : String
  projectName : String
  projectDescription : String
  repository : String
  repositoryUrl : String
  isPrerelease : Bool
  isNightly : Bool
  date : String
  dateIso : String
  binaries : List Asset
  debPackages : List Asset
  rpmPackages : List Asset
  linuxAssets : List Asset
  macosAssets : List Asset
  windowsAssets : List Asset
  hasFailures : Bool
  buildStatus : List (String × String)
  workflowRunUrl : Option String
  installCommands : List InstallCommand
deriving DecidableEq

/-- Source `buildContext` of `release-notes`.  The clock (`new Date()`)
is external: its two renderings arrive as `dateDisplay`/`dateIso`.  Note
that here the original `version` is kept alongside `versionClean`. -/
def buildReleaseContext (env : FsEnv) (files : List String)
    (version projectName projectDescription repository : String)
    (isPrerelease : Bool) (buildStatus : List (String × String))
    (workflowRunId dateDisplay dateIso : String) : ReleaseContext :=
  { version := version
  , versionClean := stripLeadingV version
  , projectName := projectName
  , projectDescription := projectDescription
  , repository := repository
  , repositoryUrl := "https://github.com/" ++ repository
  , isPrerelease := isPrerelease
  , isNightly := version = "nightly" || containsStr version "nightly"
  , date := dateDisplay
  , dateIso := dateIso
  , binaries := (discoverAssets env files).filter (fun a => a.type = AssetType.binary)
  , debPackages := (discoverAssets env files).filter (fun a => a.type = AssetType.deb)
  , rpmPackages := (discoverAssets env files).filter (fun a => a.type = AssetType.rpm)
  , linuxAssets := (discoverAssets env files).filter (fun a => a.platform.os = "Linux")
  , macosAssets := (discoverAssets env files).filter (fun a => a.platform.os = "macOS")
  , windowsAssets := (discoverAssets env files).filter (fun a => a.platform.os = "Windows")
  , hasFailures := buildStatus.any (fun p => p.2 = "failure")
  , buildStatus := buildStatus
  , workflowRunUrl :=
      if workflowRunId ≠ ""
      then some ("https://github.com/" ++ repository ++ "/actions/runs/" ++ workflowRunId)
      else none
  , installCommands := generateInstallCommands version projectName repository }

theorem lowerChar_eq (c : Char) :
    lowerChar c = if 65 ≤ c.toNat ∧ c.toNat ≤ 90 then Char.ofNat (c.toNat + 32) else c := rfl

theorem toNat_ofNat_valid (n : Nat) (h : n.isValidChar) : (Char.ofNat n).toNat = n := by
  unfold Char.ofNat
  rw [dif_pos h]
  rfl

theorem lowerChar_not_upper (c : Char) :
    ¬ (65 ≤ (lowerChar c).toNat ∧ (lowerChar c).toNat ≤ 90) := by
  rw [lowerChar_eq]
  by_cases h : 65 ≤ c.toNat ∧ c.toNat ≤ 90
  · rw [if_pos h]
    have hv : (c.toNat + 32).isValidChar := by left; omega
    rw [toNat_ofNat_valid _ hv]
    omega
  · rw [if_neg h]
    exact h

theorem lowerChar_idem (c : Char) : lowerChar (lowerChar c) = lowerChar c := by
  conv_lhs => rw [lowerChar_eq]
  rw [if_neg (lowerChar_not_upper c)]

theorem toLowerStr_idem (s : String) : toLowerStr (toLowerStr s) = toLowerStr s := by
  unfold toLowerStr
  congr 1
  rw [List.map_map]
  exact List.map_congr_left fun c _ => lowerChar_idem c

theorem lookupKey_mem {k : String} {m : List (String × α)} {v : α}
    (h : lookupKey k m = some v) : (k, v) ∈ m := by
  unfold lookupKey at h
  cases hf : m.find? (fun p => p.1 = k) with
  | none => rw [hf] at h; cases h
  | some p =>
      rw [hf] at h
      have hp : p.1 = k := by simpa using List.find?_some hf
      have hm := List.mem_of_find?_eq_some hf
      have hv : p.2 = v := by simpa using h
      rw [← hp, ← hv]
      exact hm

theorem aliasLookup_cases (x v : String)
    (h : lookupKey x PLATFORM_ALIASES = some v) :
    v = "darwin-arm64" ∨ v = "darwin-x64" ∨ v = "linux-arm64" ∨ v = "linux-x64" := by
  have hm := lookupKey_mem h
  simp only [PLATFORM_ALIASES, List.mem_cons, List.not_mem_nil, or_false,
    Prod.mk.injEq] at hm
  rcases hm with ⟨-, hv⟩ | ⟨-, hv⟩ | ⟨-, hv⟩ | ⟨-, hv⟩ | ⟨-, hv⟩ | ⟨-, hv⟩ | ⟨-, hv⟩ |
    ⟨-, hv⟩ | ⟨-, hv⟩ <;> subst hv <;> simp

theorem normalizePlatform_lookup_some {s v : String}
    (h : lookupKey (toLowerStr s) PLATFORM_ALIASES = some v) : normalizePlatform s = v := by
  unfold normalizePlatform
  rw [h]

theorem normalizePlatform_lookup_none {s : String}
    (h : lookupKey (toLowerStr s) PLATFORM_ALIASES = none) :
    normalizePlatform s = toLowerStr s := by
  unfold normalizePlatform
  rw [h]

theorem normalizePlatform_fixed_values :
    normalizePlatform "darwin-arm64" = "darwin-arm64" ∧
    normalizePlatform "darwin-x64" = "darwin-x64" ∧
    normalizePlatform "linux-arm64" = "linux-arm64" ∧
    normalizePlatform "linux-x64" = "linux-x64" := by
  refine ⟨?_, ?_, ?_, ?_⟩ <;> decide

theorem normalizePlatform_idem (s : String) :
    normalizePlatform (normalizePlatform s) = normalizePlatform s := by
  cases h : lookupKey (toLowerStr s) PLATFORM_ALIASES with
  | none =>
      rw [normalizePlatform_lookup_none h]
      have h2 : lookupKey (toLowerStr (toLowerStr s)) PLATFORM_ALIASES = none := by
        rw [toLowerStr_idem]
        exact h
      rw [normalizePlatform_lookup_none h2, toLowerStr_idem]
  | some v =>
      rw [normalizePlatform_lookup_some h]
      rcases aliasLookup_cases _ _ h with hv | hv | hv | hv <;> subst hv <;> decide

/-- C3: `normalizePlatform` is idempotent, case-insensitive (any two case
variants — strings with the same ASCII lowering — normalize identically),
maps `"DARWIN-AARCH64"` and `"darwin-aarch64"` to `"darwin-arm64"`, and
returns the lower-cased input unchanged when the alias table has no entry
for it.  Totality and determinism hold because the embedding is a Lean
function. -/
theorem C3_normalizePlatform_spec (s t : String) (h : toLowerStr s = toLowerStr t) :
    normalizePlatform (normalizePlatform s) = normalizePlatform s ∧
    normalizePlatform s = normalizePlatform t ∧
    (lookupKey (toLowerStr s) PLATFORM_ALIASES = none → normalizePlatform s = toLowerStr s) ∧
    normalizePlatform "DARWIN-AARCH64" = "darwin-arm64" ∧
    normalizePlatform "darwin-aarch64" = "darwin-arm64" := by
  refine ⟨normalizePlatform_idem s, ?_, ?_, by decide, by decide⟩
  · unfold normalizePlatform
    rw [h]
  · intro hnone
    unfold normalizePlatform
    rw [hnone]

/-! ## Association-list lemmas for the JavaScript object model -/

theorem lookupKey_cons (k : String) (q : String × α) (rest : List (String × α)) :
    lookupKey k (q :: rest) = if q.1 = k then some q.2 else lookupKey k rest := by
  unfold lookupKey
  by_cases h : q.1 = k
  · rw [List.find?_cons_of_pos _ (by simpa using h), if_pos h]
    rfl
  · rw [List.find?_cons_of_neg _ (by simpa using h), if_neg h]

theorem lookupKey_objInsert (k k' : String) (v : α) :
    ∀ m : List (String × α),
      lookupKey k (objInsert m k' v) = if k = k' then some v else lookupKey k m := by
  intro m
  induction m with
  | nil =>
      rw [show objInsert ([] : List (String × α)) k' v = [(k', v)] from rfl, lookupKey_cons]
      by_cases h : k = k'
      · rw [if_pos h.symm, if_pos h]
      · rw [if_neg (fun hs => h hs.symm), if_neg h]
  | cons p rest ih =>
      unfold objInsert
      by_cases hp : p.1 = k'
      · rw [if_pos hp, lookupKey_cons, lookupKey_cons]
        by_cases hk : k = k'
        · rw [if_pos (by simpa using hk.symm), if_pos hk]
        · rw [if_neg (by simpa using fun hs => hk hs.symm), if_neg hk,
            if_neg (by rw [hp]; exact fun hs => hk hs.symm)]
      · rw [if_neg hp, lookupKey_cons, lookupKey_cons]
        by_cases hq : p.1 = k
        · have hk : ¬ k = k' := fun hkk => hp (hq.trans hkk)
          rw [if_pos hq, if_pos hq, if_neg hk]
        · rw [if_neg hq, if_neg hq, ih]

theorem keys_objInsert (k : String) (v : α) :
    ∀ m : List (String × α),
      (objInsert m k v).map Prod.fst =
        if k ∈ m.map Prod.fst then m.map Prod.fst else m.map Prod.fst ++ [k] := by
  intro m
  induction m with
  | nil => simp [objInsert]
  | cons p rest ih =>
      unfold objInsert
      by_cases hp : p.1 = k
      · rw [if_pos hp]
        have : k ∈ (p :: rest).map Prod.fst := by simp [hp.symm]
        rw [if_pos this]
        simp [hp]
      · rw [if_neg hp]
        by_cases hk : k ∈ rest.map Prod.fst
        · have : k ∈ (p :: rest).map Prod.fst := by simp [hk]
          rw [if_pos this]
          simp [ih, hk]
        · have : ¬ k ∈ (p :: rest).map Prod.fst := by
            simp only [List.map_cons, List.mem_cons]
            rintro (h | h)
            · exact hp h.symm
            · exact hk h
          rw [if_neg this]
          simp [ih, hk]

theorem nodup_keys_objInsert (k : String) (v : α) (m : List (String × α))
    (h : (m.map Prod.fst).Nodup) : ((objInsert m k v).map Prod.fst).Nodup := by
  rw [keys_objInsert]
  by_cases hk : k ∈ m.map Prod.fst
  · rw [if_pos hk]
    exact h
  · rw [if_neg hk]
    simp [List.nodup_append, h, hk]

theorem processAssetsGo_lookup (httpText : String → Option String) (c : String) :
    ∀ (raw acc : List (String × AssetInfo)) (tr : List String),
      lookupKey c (processAssetsGo httpText raw acc tr).1 =
        match raw.reverse.find? (fun p => normalizePlatform p.1 = c) with
        | some p => some { p.2 with sha256 := resolveSha256 httpText p.2 }
        | none => lookupKey c acc := by
  intro raw
  induction raw with
  | nil => intro acc tr; rfl
  | cons q rest ih =>
      intro acc tr
      obtain ⟨platform, info⟩ := q
      show lookupKey c (processAssetsGo httpText rest _ _).1 = _
      rw [ih]
      rw [List.reverse_cons, List.find?_append]
      cases hrest : rest.reverse.find? (fun p => normalizePlatform p.1 = c) with
      | some p => rfl
      | none =>
          show lookupKey c (objInsert acc (normalizePlatform platform) _) = _
          rw [lookupKey_objInsert]
          by_cases hc : normalizePlatform platform = c
          · rw [if_pos hc.symm]
            simp [List.find?, hc]
          · rw [if_neg (fun hs => hc hs.symm)]
            simp [List.find?, hc]

theorem processAssetsGo_keys_from (httpText : String → Option String) (k : String) :
    ∀ (raw acc : List (String × AssetInfo)) (tr : List String),
      k ∈ ((processAssetsGo httpText raw acc tr).1.map Prod.fst) →
        k ∈ acc.map Prod.fst ∨ ∃ p ∈ raw, k = normalizePlatform p.1 := by
  intro raw
  induction raw with
  | nil =>
      intro acc tr h
      exact Or.inl h
  | cons q rest ih =>
      intro acc tr h
      obtain ⟨platform, info⟩ := q
      rcases ih _ _ h with hacc | ⟨p, hp, hk⟩
      · rw [keys_objInsert] at hacc
        by_cases hmem : normalizePlatform platform ∈ acc.map Prod.fst
        · rw [if_pos hmem] at hacc
          exact Or.inl hacc
        · rw [if_neg hmem] at hacc
          rcases List.mem_append.mp hacc with h1 | h1
          · exact Or.inl h1
          · refine Or.inr ⟨(platform, info), by simp, ?_⟩
            simpa using h1
      · exact Or.inr ⟨p, by simp [hp], hk⟩

theorem processAssetsGo_keys_grow (httpText : String → Option String) (k : String) :
    ∀ (raw acc : List (String × AssetInfo)) (tr : List String),
      k ∈ acc.map Prod.fst → k ∈ ((processAssetsGo httpText raw acc tr).1.map Prod.fst) := by
  intro raw
  induction raw with
  | nil => intro acc tr h; exact h
  | cons q rest ih =>
      intro acc tr h
      obtain ⟨platform, info⟩ := q
      refine ih _ _ ?_
      rw [keys_objInsert]
      by_cases hmem : normalizePlatform platform ∈ acc.map Prod.fst
      · rw [if_pos hmem]; exact h
      · rw [if_neg hmem]; exact List.mem_append.mpr (Or.inl h)

theorem processAssetsGo_keys_cover (httpText : String → Option String) :
    ∀ (raw acc : List (String × AssetInfo)) (tr : List String) (p : String × AssetInfo),
      p ∈ raw → normalizePlatform p.1 ∈ ((processAssetsGo httpText raw acc tr).1.map Prod.fst) := by
  intro raw
  induction raw with
  | nil => intro acc tr p h; cases h
  | cons q rest ih =>
      intro acc tr p hp
      obtain ⟨platform, info⟩ := q
      rcases List.mem_cons.mp hp with h | h
      · have hp1 : p.1 = platform := by rw [h]
        rw [hp1]
        refine processAssetsGo_keys_grow httpText _ rest _ _ ?_
        rw [keys_objInsert]
        by_cases hmem : normalizePlatform platform ∈ acc.map Prod.fst
        · rw [if_pos hmem]; exact hmem
        · rw [if_neg hmem]; exact List.mem_append.mpr (Or.inr (by simp))
      · exact ih _ _ p h

theorem processAssetsGo_nodup (httpText : String → Option String) :
    ∀ (raw acc : List (String × AssetInfo)) (tr : List String),
      (acc.map Prod.fst).Nodup → ((processAssetsGo httpText raw acc tr).1.map Prod.fst).Nodup := by
  intro raw
  induction raw with
  | nil => intro acc tr h; exact h
  | cons q rest ih =>
      intro acc tr h
      obtain ⟨platform, info⟩ := q
      exact ih _ _ (nodup_keys_objInsert _ _ _ h)

theorem toLowerStr_normalizePlatform (s : String) :
    toLowerStr (normalizePlatform s) = normalizePlatform s := by
  cases h : lookupKey (toLowerStr s) PLATFORM_ALIASES with
  | none =>
      rw [normalizePlatform_lookup_none h, toLowerStr_idem]
  | some v =>
      rw [normalizePlatform_lookup_some h]
      rcases aliasLookup_cases _ _ h with hv | hv | hv | hv <;> subst hv <;> decide

/-- C4: every key of the processed assets mapping is lowercase and a fixed
point of `normalizePlatform`, the keys are pairwise distinct (two raw
spellings of one platform never coexist), and the value stored under a
canonical key is the processed asset of the raw entry appearing last in
input iteration order among those normalizing to that key
(last-write-wins). -/
theorem C4_processAssets_keys (httpText : String → Option String)
    (raw : List (String × AssetInfo)) :
    ((processAssets httpText raw).map Prod.fst).Nodup ∧
    (∀ k ∈ (processAssets httpText raw).map Prod.fst, normalizePlatform k = k) ∧
    (∀ k ∈ (processAssets httpText raw).map Prod.fst, toLowerStr k = k) ∧
    (∀ c, lookupKey c (processAssets httpText raw) =
      (raw.reverse.find? (fun p => normalizePlatform p.1 = c)).map
        (fun p => { p.2 with sha256 := resolveSha256 httpText p.2 })) := by
  refine ⟨processAssetsGo_nodup httpText raw [] [] (by simp), ?_, ?_, ?_⟩
  · intro k hk
    rcases processAssetsGo_keys_from httpText k raw [] [] hk with h | ⟨p, _, hkp⟩
    · simp at h
    · rw [hkp]
      exact normalizePlatform_idem p.1
  · intro k hk
    rcases processAssetsGo_keys_from httpText k raw [] [] hk with h | ⟨p, _, hkp⟩
    · simp at h
    · rw [hkp]
      exact toLowerStr_normalizePlatform p.1
  · intro c
    rw [processAssets, processAssetsGo_lookup]
    cases raw.reverse.find? (fun p => normalizePlatform p.1 = c) with
    | some p => rfl
    | none => rfl

theorem processAssetsGo_trace (httpText : String → Option String) :
    ∀ (raw acc : List (String × AssetInfo)) (tr : List String),
      (processAssetsGo httpText raw acc tr).2 =
        tr ++ (raw.filter (fun p => entryFetches p.2)).map (fun p => p.2.url) := by
  intro raw
  induction raw with
  | nil => intro acc tr; simp [processAssetsGo]
  | cons q rest ih =>
      intro acc tr
      obtain ⟨platform, info⟩ := q
      show (processAssetsGo httpText rest _ _).2 = _
      rw [ih]
      by_cases hf : entryFetches info
      · simp [hf]
      · simp [hf]

/-- The value stored under the canonical key of a raw entry that is the last
of its collision class is that entry's processed asset. -/
theorem processAssets_lookup_last (httpText : String → Option String)
    (l1 l2 : List (String × AssetInfo)) (platform : String) (info : AssetInfo)
    (hlast : ∀ q ∈ l2, normalizePlatform q.1 ≠ normalizePlatform platform) :
    lookupKey (normalizePlatform platform) (processAssets httpText (l1 ++ (platform, info) :: l2)) =
      some { info with sha256 := resolveSha256 httpText info } := by
  rw [processAssets, processAssetsGo_lookup]
  have hnone : l2.reverse.find?
      (fun p => normalizePlatform p.1 = normalizePlatform platform) = none := by
    apply List.find?_eq_none.mpr
    intro x hx
    simp only [decide_eq_true_eq]
    exact hlast x (List.mem_reverse.mp hx)
  rw [List.reverse_append, List.reverse_cons, List.find?_append, List.find?_append, hnone]
  simp [List.find?]

/-! Parsing lemmas for sidecar contents that start with a 64-digit hash. -/

theorem isHexChar_not_ws (c : Char) (h : isHexChar c = true) : c.isWhitespace = false := by
  cases hcw : c.isWhitespace
  · rfl
  · exfalso
    have hcw' : c = ' ' ∨ c = '\t' ∨ c = '\x0d' ∨ c = '\n' := by
      unfold Char.isWhitespace at hcw
      simp only [Bool.or_eq_true, decide_eq_true_eq] at hcw
      tauto
    rcases hcw' with h1 | h1 | h1 | h1 <;> rw [h1] at h <;> exact absurd h (by decide)

theorem dropWhile_append_head (p : Char → Bool) (xs : List Char) :
    ∀ (ys : List Char), (∃ y l, ys = y :: l ∧ p y = false) →
      (xs ++ ys).dropWhile p = xs.dropWhile p ++ ys := by
  induction xs with
  | nil =>
      rintro ys ⟨y, l, rfl, hy⟩
      simp [List.dropWhile_cons, hy]
  | cons x xs ih =>
      rintro ys hy
      by_cases hx : p x
      · simp only [List.cons_append, List.dropWhile_cons, hx, if_true]
        exact ih ys hy
      · simp [List.dropWhile_cons, hx]

theorem parseSha256_prefix (hash rest : String)
    (hlen : hash.data.length = 64) (hhex : hash.data.all isHexChar = true) :
    parseSha256 (hash ++ rest) = some (toLowerStr hash) := by
  obtain ⟨c, cs, hcons⟩ : ∃ c cs, hash.data = c :: cs := by
    cases hd : hash.data with
    | nil => rw [hd] at hlen; cases hlen
    | cons c cs => exact ⟨c, cs, rfl⟩
  have hhex' : ∀ x ∈ hash.data, isHexChar x = true := by
    intro x hx
    exact List.all_eq_true.mp hhex x hx
  have hdata : (hash ++ rest).data = hash.data ++ rest.data := String.data_append hash rest
  have hlead : ((hash ++ rest).data.dropWhile Char.isWhitespace) = hash.data ++ rest.data := by
    rw [hdata, hcons]
    simp only [List.cons_append, List.dropWhile_cons,
      isHexChar_not_ws c (hhex' c (by rw [hcons]; exact List.mem_cons_self c cs))]
    simp
  have htrail : (hash.data ++ rest.data).reverse.dropWhile Char.isWhitespace =
      rest.data.reverse.dropWhile Char.isWhitespace ++ hash.data.reverse := by
    rw [List.reverse_append]
    apply dropWhile_append_head
    obtain ⟨d, ds, hrev⟩ : ∃ d ds, hash.data.reverse = d :: ds := by
      cases hr : hash.data.reverse with
      | nil =>
          exfalso
          have : hash.data = [] := by
            have := congrArg List.reverse hr
            simpa using this
          rw [this] at hlen
          cases hlen
      | cons d ds => exact ⟨d, ds, rfl⟩
    refine ⟨d, ds, hrev, ?_⟩
    have hd_mem : d ∈ hash.data := by
      have : d ∈ hash.data.reverse := by rw [hrev]; exact List.mem_cons_self d ds
      exact List.mem_reverse.mp this
    exact isHexChar_not_ws d (hhex' d hd_mem)
  have htrim : (trimStr (hash ++ rest)).data =
      hash.data ++ (rest.data.reverse.dropWhile Char.isWhitespace).reverse := by
    show (((hash ++ rest).data.dropWhile Char.isWhitespace).reverse.dropWhile
      Char.isWhitespace).reverse = _
    rw [hlead, htrail]
    rw [List.reverse_append, List.reverse_reverse]
  have htake : (trimStr (hash ++ rest)).data.take 64 = hash.data := by
    rw [htrim, ← hlen, List.take_left]
  unfold parseSha256
  rw [htake, hlen, hhex]
  simp [toLowerStr]

/-- No digest is ever computed for a file whose sidecar parses: invariant of
the `processFiles` loop. -/
theorem processFilesGo_no_compute (env : FileEnv) (filepath : String)
    (hside : (readSha256File env.fsRead filepath).isSome = true) :
    ∀ (files : List String) (res out : List (String × String)) (tr tr' : List String),
      filepath ∉ tr → processFilesGo env true files res tr = .ok (out, tr') →
        filepath ∉ tr' := by
  intro files
  induction files with
  | nil =>
      intro res out tr tr' htr h
      cases h
      exact htr
  | cons f rest ih =>
      intro res out tr tr' htr h
      by_cases hskip : endsWithStr f ".sha256"
      · rw [processFilesGo, if_pos hskip] at h
        exact ih _ _ _ _ htr h
      · rw [processFilesGo, if_neg hskip] at h
        simp only [if_true] at h
        cases hr : readSha256File env.fsRead f with
        | some hh =>
            rw [hr] at h
            exact ih _ _ _ _ htr h
        | none =>
            rw [hr] at h
            cases hd : env.fileHash f with
            | ok hh =>
                rw [hd] at h
                refine ih _ _ _ _ ?_ h
                intro hmem
                rcases List.mem_append.mp hmem with hmem | hmem
                · exact htr hmem
                · have hf : f = filepath := (List.mem_singleton.mp hmem).symm
                  rw [hf] at hr
                  rw [hr] at hside
                  cases hside
            | error e =>
                rw [hd] at h
                cases h

/-- Witness for C3 at the concrete case variants from the specification. -/
theorem C3_witness :
    toLowerStr "DARWIN-AARCH64" = toLowerStr "darwin-aarch64" ∧
    normalizePlatform (normalizePlatform "DARWIN-AARCH64") = normalizePlatform "DARWIN-AARCH64" ∧
    normalizePlatform "DARWIN-AARCH64" = normalizePlatform "darwin-aarch64" := by
  have h : toLowerStr "DARWIN-AARCH64" = toLowerStr "darwin-aarch64" := by decide
  have := C3_normalizePlatform_spec "DARWIN-AARCH64" "darwin-aarch64" h
  exact ⟨h, this.1, this.2.1⟩

/-- C10 (amended): for a raw entry that is the last of its collision class
(no later entry normalizes to the same canonical key), the processed entry
stored under its canonical key keeps `url` and `filename` unchanged, with
`sha256` resolved by the keep-or-fetch policy; and when the incoming
`sha256` is present and non-empty it is kept verbatim and no sidecar fetch
is attempted for that asset. -/
theorem C10_processAssets_frame (httpText : String → Option String)
    (l1 l2 : List (String × AssetInfo)) (platform : String) (info : AssetInfo)
    (hlast : ∀ q ∈ l2, normalizePlatform q.1 ≠ normalizePlatform platform) :
    lookupKey (normalizePlatform platform) (processAssets httpText (l1 ++ (platform, info) :: l2)) =
      some { url := info.url, sha256 := resolveSha256 httpText info, filename := info.filename } ∧
    (isFalsyStr info.sha256 = false →
      resolveSha256 httpText info = info.sha256 ∧
      processAssetsTrace httpText (l1 ++ (platform, info) :: l2) =
        processAssetsTrace httpText (l1 ++ l2)) := by
  constructor
  · exact processAssets_lookup_last httpText l1 l2 platform info hlast
  · intro hsha
    have hef : entryFetches info = false := by
      unfold entryFetches
      rw [hsha]
      rfl
    constructor
    · unfold resolveSha256
      rw [hef]
      simp
    · unfold processAssetsTrace
      rw [processAssetsGo_trace, processAssetsGo_trace]
      rw [List.filter_append, List.filter_append, List.filter_cons]
      simp [hef]

/-- Witness for C10 at a single-entry batch with a present, non-empty
checksum. -/
theorem C10_witness :
    lookupKey (normalizePlatform "linux-x64")
        (processAssets (fun _ => none)
          ([] ++ ("linux-x64", { url := "u", sha256 := some "abc", filename := none }) :: [])) =
      some { url := "u",
              sha256 := resolveSha256 (fun _ => none)
                { url := "u", sha256 := some "abc", filename := none },
              filename := none } ∧
    resolveSha256 (fun _ => none) { url := "u", sha256 := some "abc", filename := none } =
      some "abc" := by
  have h := C10_processAssets_frame (fun _ => none) [] [] "linux-x64"
    { url := "u", sha256 := some "abc", filename := none } (by simp)
  exact ⟨h.1, (h.2 (by decide)).1⟩

/-- C10 counterexample to the claim as stated: (a) with the two raw keys
`darwin-amd64` and `darwin-x64` in one input, the output entry under
`normalizePlatform "darwin-amd64" = "darwin-x64"` carries the second
entry's url, so the first entry's `url` is not preserved; (b) an input
`sha256` that is present but empty (`""`) is falsy, so the sidecar fetch
is attempted anyway (trace `["u1"]`) and the output checksum is the
fetched hash, not the present input value. -/
theorem C10_counterexample :
    (lookupKey (normalizePlatform "darwin-amd64")
        (processAssets (fun _ => none)
          [("darwin-amd64", { url := "uA", sha256 := some "a1", filename := none }),
           ("darwin-x64", { url := "uB", sha256 := some "b1", filename := none })])).map
        AssetInfo.url = some "uB" ∧
    ("uB" : String) ≠ "uA" ∧
    processAssetsTrace
        (fun u => if u = "u1.sha256" then some "aaaaaaaaaaaaaaaaaaaaaaaaaaaaaaaaaaaaaaaaaaaaaaaaaaaaaaaaaaaaaaaa" else none)
        [("linux-x64", { url := "u1", sha256 := some "", filename := none })] = ["u1"] ∧
    (lookupKey "linux-x64"
        (processAssets
          (fun u => if u = "u1.sha256" then some "aaaaaaaaaaaaaaaaaaaaaaaaaaaaaaaaaaaaaaaaaaaaaaaaaaaaaaaaaaaaaaaa" else none)
          [("linux-x64", { url := "u1", sha256 := some "", filename := none })])).map
        AssetInfo.sha256 =
      some (some "aaaaaaaaaaaaaaaaaaaaaaaaaaaaaaaaaaaaaaaaaaaaaaaaaaaaaaaaaaaaaaaa") ∧
    (some (some "aaaaaaaaaaaaaaaaaaaaaaaaaaaaaaaaaaaaaaaaaaaaaaaaaaaaaaaaaaaaaaaa") : Option (Option String)) ≠ some (some "") := by
  refine ⟨by decide, by decide, by decide, by decide, by decide⟩

/-- C1 (amended): per-asset isolation holds for the sidecar-checksum step:
in `processAssets` an asset whose checksum resolution fails entirely (no
incoming checksum, sidecar fetch misses) ends up with its checksum absent
while every asset of the batch is still processed, and the run never
aborts; but in `processUrls` of the `compute-checksums` action a failed
download of the asset content itself propagates and abandons the whole
remaining batch. -/
theorem C1_per_asset_isolation (httpText : String → Option String)
    (l1 l2 : List (String × AssetInfo)) (platform : String) (info : AssetInfo)
    (env : UrlEnv) (url : String) (rest : List String)
    (res : List (String × String)) (e : String)
    (h1 : info.sha256 = none) (h2 : fetchSha256 httpText info.url = none)
    (hlast : ∀ q ∈ l2, normalizePlatform q.1 ≠ normalizePlatform platform)
    (h3 : fetchSha256FromUrl env.httpText url = none)
    (h4 : env.download url = .error e) :
    lookupKey (normalizePlatform platform) (processAssets httpText (l1 ++ (platform, info) :: l2)) =
      some { url := info.url, sha256 := none, filename := info.filename } ∧
    (∀ q ∈ l1 ++ (platform, info) :: l2,
      normalizePlatform q.1 ∈ (processAssets httpText (l1 ++ (platform, info) :: l2)).map Prod.fst) ∧
    processUrlsGo env true (url :: rest) res = Except.error e := by
  refine ⟨?_, ?_, ?_⟩
  · rw [processAssets_lookup_last httpText l1 l2 platform info hlast]
    have hres : resolveSha256 httpText info = none := by
      unfold resolveSha256
      by_cases hef : entryFetches info
      · rw [if_pos hef]
        exact h2
      · rw [if_neg hef]
        exact h1
    rw [hres]
  · intro q hq
    exact processAssetsGo_keys_cover httpText _ [] [] q hq
  · rw [processUrlsGo]
    simp [h3, h4]

/-- Witness for C1: a one-asset homebrew batch with no reachable sidecar,
and an aborting two-url checksum batch. -/
theorem C1_witness :
    lookupKey (normalizePlatform "linux-x64")
        (processAssets (fun _ => none)
          ([] ++ ("linux-x64", { url := "u", sha256 := none, filename := none }) :: [])) =
      some { url := "u", sha256 := none, filename := none } ∧
    processUrlsGo
        { httpText := fun _ => none,
           download := fun u => Except.error ("Failed to download " ++ u),
           hashBytes := fun _ => "", urlPathname := fun s => s } true ("a" :: ["b"]) [] =
      Except.error ("Failed to download " ++ "a") := by
  have h := C1_per_asset_isolation (fun _ => none) [] [] "linux-x64"
      { url := "u", sha256 := none, filename := none }
      { httpText := fun _ => none,
         download := fun u => Except.error ("Failed to download " ++ u),
         hashBytes := fun _ => "", urlPathname := fun s => s }
      "a" ["b"] [] ("Failed to download " ++ "a") rfl rfl (by simp) rfl rfl
  exact ⟨h.1, h.2.2⟩

/-- C1 counterexample to the claim as stated: in `processUrls`, when the
first asset has no sidecar and its download throws, the whole batch is
abandoned with that error — the second asset (which on its own would have
produced a checksum) is not processed. -/
theorem C1_counterexample :
    processUrlsGo
        { httpText := fun _ => none,
           download := fun u =>
             if u = "uA" then Except.error "Failed to download uA: 404 Not Found"
             else Except.ok [1],
           hashBytes := fun _ => "hB", urlPathname := fun s => s } true ["uA", "uB"] [] =
      Except.error "Failed to download uA: 404 Not Found" ∧
    processUrlsGo
        { httpText := fun _ => none,
           download := fun u =>
             if u = "uA" then Except.error "Failed to download uA: 404 Not Found"
             else Except.ok [1],
           hashBytes := fun _ => "hB", urlPathname := fun s => s } true ["uB"] [] =
      Except.ok [("uB", "hB")] := by
  constructor
  · rfl
  · rfl

/-- C2 (amended): when the sidecar file `<filepath>.sha256` is readable and
its content starts with 64 hexadecimal characters, the resolver returns
those 64 characters lower-cased (hence verbatim whenever the published
hash is lowercase, as in the two-column `shasum` format), and no digest
is computed for that file in any successful `processFiles` run containing
it. -/
theorem C2_sidecar_trusted (env : FileEnv) (filepath hash rest : String)
    (files : List String) (out : List (String × String)) (tr : List String)
    (hlen : hash.data.length = 64) (hhex : hash.data.all isHexChar = true)
    (hread : env.fsRead (filepath ++ ".sha256") = some (hash ++ rest))
    (hmem : filepath ∈ files)
    (hok : processFilesGo env true files [] [] = .ok (out, tr)) :
    readSha256File env.fsRead filepath = some (toLowerStr hash) ∧ filepath ∉ tr := by
  have hr : readSha256File env.fsRead filepath = some (toLowerStr hash) := by
    unfold readSha256File
    rw [hread]
    exact parseSha256_prefix hash rest hlen hhex
  refine ⟨hr, ?_⟩
  exact processFilesGo_no_compute env filepath (by rw [hr]; rfl) files [] out [] tr
    (by simp) hok

/-- Witness for C2: a lowercase sidecar in two-column format; the file's
checksum is read, not computed. -/
theorem C2_witness :
    readSha256File
        (fun p => if p = "f.tar.gz.sha256"
          then some ("ffffffffffffffffffffffffffffffffffffffffffffffffffffffffffffffff" ++ "  myapp.tar.gz\n")
          else none) "f.tar.gz" =
      some (toLowerStr "ffffffffffffffffffffffffffffffffffffffffffffffffffffffffffffffff") ∧
    "f.tar.gz" ∉ ([] : List String) := by
  exact C2_sidecar_trusted
    { fsRead := fun p => if p = "f.tar.gz.sha256"
         then some ("ffffffffffffffffffffffffffffffffffffffffffffffffffffffffffffffff" ++ "  myapp.tar.gz\n")
         else none,
       fileHash := fun _ => Except.error "stream error" }
    "f.tar.gz" "ffffffffffffffffffffffffffffffffffffffffffffffffffffffffffffffff" "  myapp.tar.gz\n"
    ["f.tar.gz"]
    [("f.tar.gz", "ffffffffffffffffffffffffffffffffffffffffffffffffffffffffffffffff")] []
    (by decide) (by decide) rfl (by simp) rfl

/-- C2 counterexample to the claim as stated: a sidecar whose content
starts with 64 uppercase hexadecimal characters is accepted, but the hash
is returned lower-cased — not unchanged. -/
theorem C2_counterexample :
    readSha256File
        (fun p => if p = "g.tar.gz.sha256"
          then some ("AAAAAAAAAAAAAAAAAAAAAAAAAAAAAAAAAAAAAAAAAAAAAAAAAAAAAAAAAAAAAAAA" ++ "  myapp.tar.gz\n")
          else none) "g.tar.gz" =
      some "aaaaaaaaaaaaaaaaaaaaaaaaaaaaaaaaaaaaaaaaaaaaaaaaaaaaaaaaaaaaaaaa" ∧
    ("aaaaaaaaaaaaaaaaaaaaaaaaaaaaaaaaaaaaaaaaaaaaaaaaaaaaaaaaaaaaaaaa" : String) ≠ "AAAAAAAAAAAAAAAAAAAAAAAAAAAAAAAAAAAAAAAAAAAAAAAAAAAAAAAAAAAAAAAA" ∧
    ("AAAAAAAAAAAAAAAAAAAAAAAAAAAAAAAAAAAAAAAAAAAAAAAAAAAAAAAAAAAAAAAA" : String).data.all isHexChar = true ∧
    ("AAAAAAAAAAAAAAAAAAAAAAAAAAAAAAAAAAAAAAAAAAAAAAAAAAAAAAAAAAAAAAAA" : String).data.length = 64 := by
  refine ⟨by decide, by decide, by decide, by decide⟩

/-- C5 (amended): both context builders strip one leading `v` character to
produce the clean version string; the release-notes builder exposes the
clean string alongside the original (`version` is the original, there),
but the homebrew-tap formula builder stores the clean string in both the
`version` and `versionClean` fields — the original version string is not
exposed in its context. -/
theorem C5_version_exposure
    (name version : String) (assets : List (String × AssetInfo))
    (description homepage license binaryName : String) (privateRepo : Bool)
    (env : FsEnv) (files : List String)
    (projectName projectDescription repository : String) (isPrerelease : Bool)
    (buildStatus : List (String × String)) (workflowRunId dateDisplay dateIso : String)
    (w : String) (hw : w.data.head? ≠ some 'v') :
    (buildContext name version assets description homepage license binaryName
        privateRepo).version = stripLeadingV version ∧
    (buildContext name version assets description homepage license binaryName
        privateRepo).versionClean = stripLeadingV version ∧
    (buildReleaseContext env files version projectName projectDescription repository
        isPrerelease buildStatus workflowRunId dateDisplay dateIso).version = version ∧
    (buildReleaseContext env files version projectName projectDescription repository
        isPrerelease buildStatus workflowRunId dateDisplay dateIso).versionClean =
      stripLeadingV version ∧
    (∀ u : String, stripLeadingV ("v" ++ u) = u) ∧
    stripLeadingV w = w := by
  refine ⟨rfl, rfl, rfl, rfl, ?_, ?_⟩
  · intro u
    have hd : ("v" ++ u).data = 'v' :: u.data := by
      rw [String.data_append]
      rfl
    unfold stripLeadingV
    rw [hd]
    show (if 'v' = 'v' then (⟨u.data⟩ : String) else "v" ++ u) = u
    rw [if_pos rfl]
  · unfold stripLeadingV
    cases hd : w.data with
    | nil => rfl
    | cons c rest =>
        have hc : ¬ c = 'v' := by
          intro hcv
          apply hw
          rw [hd, hcv]
          rfl
        show (if c = 'v' then (⟨rest⟩ : String) else w) = w
        rw [if_neg hc]

/-- Witness for C5 at a concrete version with a leading `v` and a clean
string with no leading `v`. -/
theorem C5_witness :
    (buildContext "myapp" "v1.0.0" [] "" "" "" "" false).version = stripLeadingV "v1.0.0" ∧
    (buildReleaseContext { sizeOf := fun _ => none, fsRead := fun _ => none } []
        "v1.0.0" "myapp" "" "o/r" false [] "" "d" "di").version = "v1.0.0" ∧
    stripLeadingV "1.2.3" = "1.2.3" := by
  have h := C5_version_exposure "myapp" "v1.0.0" [] "" "" "" "" false
    { sizeOf := fun _ => none, fsRead := fun _ => none } []
    "myapp" "" "o/r" false [] "" "d" "di" "1.2.3" (by decide)
  exact ⟨h.1, h.2.2.1, h.2.2.2.2.2⟩

/-- C5 counterexample to the claim as stated: for the homebrew-tap
builder with version `"v1.0.0"`, the built context's `version` field is
`"1.0.0"`, not the original string — the original `version` is not
present in that rendering context. -/
theorem C5_counterexample :
    (buildContext "myapp" "v1.0.0" [] "" "" "" "" false).version = "1.0.0" ∧
    ("1.0.0" : String) ≠ "v1.0.0" ∧
    (buildContext "myapp" "v1.0.0" [] "" "" "" "" false).versionClean = "1.0.0" := by
  refine ⟨by decide, by decide, by decide⟩

/-- C6: in every built formula context the `darwinAmd64` field equals the
`darwinX64` field and `linuxAmd64` equals `linuxX64`: the amd64 aliases
are defined as the very same lookup as the x64 fields, so they are never
independently settable. -/
theorem C6_alias_invariant (name version : String) (assets : List (String × AssetInfo))
    (description homepage license binaryName : String) (privateRepo : Bool) :
    (buildContext name version assets description homepage license binaryName
        privateRepo).darwinAmd64 =
      (buildContext name version assets description homepage license binaryName
        privateRepo).darwinX64 ∧
    (buildContext name version assets description homepage license binaryName
        privateRepo).linuxAmd64 =
      (buildContext name version assets description homepage license binaryName
        privateRepo).linuxX64 :=
  ⟨rfl, rfl⟩

/-! ## Asset-classifier lemmas -/

/-- C7 (amended): whenever the basename contains some id of the pattern
table, classification succeeds and returns the first matching id in the
fixed table order (the musl variant precedes plain `linux-amd64`, so the
more specific substring wins); surrounding filename text never prevents a
match, and in particular the two specification examples classify as
`linux-amd64-musl` and `linux-amd64`. -/
theorem C7_detect_first_match (f id : String) (d : PlatformData)
    (hmem : (id, d) ∈ PLATFORM_PATTERNS)
    (hsub : containsStr (basename f) id = true) :
    ∃ q : String × PlatformData,
      q ∈ PLATFORM_PATTERNS ∧
      containsStr (basename f) q.1 = true ∧
      PLATFORM_PATTERNS.find? (fun p => containsStr (basename f) p.1) = some q ∧
      detectPlatform f = some (mkPlatform q.1 q.2) ∧
      (detectPlatform "myapp-v1.2.3-linux-amd64-musl.tar.gz").map Platform.id =
        some "linux-amd64-musl" ∧
      (detectPlatform "myapp-v1.2.3-linux-amd64.tar.gz").map Platform.id =
        some "linux-amd64" := by
  cases hf : PLATFORM_PATTERNS.find? (fun p => containsStr (basename f) p.1) with
  | none =>
      exact absurd hsub (List.find?_eq_none.mp hf (id, d) hmem)
  | some q =>
      refine ⟨q, List.mem_of_find?_eq_some hf, by simpa using List.find?_some hf, rfl, ?_,
        by decide, by decide⟩
      unfold detectPlatform
      rw [hf]

/-- Witness for C7 at the musl example from the specification. -/
theorem C7_witness :
    ("linux-amd64-musl",
      ({ os := "Linux", osIcon := "", arch := "x86_64", archFull := "x86_64 (64-bit, static)"
       , variant := some "musl", displayName := "Linux x86_64 (static)" } : PlatformData)) ∈
      PLATFORM_PATTERNS ∧
    containsStr (basename "myapp-v1.2.3-linux-amd64-musl.tar.gz") "linux-amd64-musl" = true ∧
    ∃ q : String × PlatformData,
      q ∈ PLATFORM_PATTERNS ∧
      detectPlatform "myapp-v1.2.3-linux-amd64-musl.tar.gz" = some (mkPlatform q.1 q.2) := by
  have h := C7_detect_first_match "myapp-v1.2.3-linux-amd64-musl.tar.gz" "linux-amd64-musl"
    { os := "Linux", osIcon := "", arch := "x86_64", archFull := "x86_64 (64-bit, static)"
    , variant := some "musl", displayName := "Linux x86_64 (static)" }
    (by decide) (by decide)
  obtain ⟨q, hq1, hq2, -, hq4, -, -⟩ := h
  exact ⟨by decide, by decide, q, hq1, hq4⟩

/-- C7 counterexample to the claim as stated: the filename
`app-darwin-arm64-linux-amd64.tar.gz` contains the table id
`darwin-arm64`, yet classification returns `linux-amd64` (the earlier
table entry), not that platform's id. -/
theorem C7_counterexample :
    containsStr (basename "app-darwin-arm64-linux-amd64.tar.gz") "darwin-arm64" = true ∧
    ("darwin-arm64",
      ({ os := "macOS", osIcon := "", arch := "arm64"
       , archFull := "Apple Silicon (M1/M2/M3/M4)", variant := none
       , displayName := "macOS Apple Silicon" } : PlatformData)) ∈ PLATFORM_PATTERNS ∧
    (detectPlatform "app-darwin-arm64-linux-amd64.tar.gz").map Platform.id =
      some "linux-amd64" ∧
    (some "linux-amd64" : Option String) ≠ some "darwin-arm64" := by
  refine ⟨by decide, by decide, by decide, by decide⟩

theorem rpmArchOf_ends (b : String) (arch : String) (h : rpmArchOf b = some arch) :
    endsWithStr b ".rpm" = true := by
  unfold rpmArchOf at h
  by_cases he : endsWithStr b ".rpm" = true
  · exact he
  · rw [if_neg (by simpa using he)] at h
    cases h

theorem debArchOf_ends (b : String) (arch : String) (h : debArchOf b = some arch) :
    endsWithStr b ".deb" = true := by
  unfold debArchOf at h
  by_cases he : endsWithStr b ".deb" = true
  · exact he
  · rw [if_neg (by simpa using he)] at h
    cases h

theorem not_deb_of_rpm (b : String) (h : endsWithStr b ".rpm" = true) :
    endsWithStr b ".deb" = false := by
  unfold endsWithStr at h ⊢
  have hlit1 : (".rpm" : String).data.reverse = ['m', 'p', 'r', '.'] := by decide
  have hlit2 : (".deb" : String).data.reverse = ['b', 'e', 'd', '.'] := by decide
  rw [hlit1] at h
  rw [hlit2]
  cases hrev : b.data.reverse with
  | nil =>
      rw [hrev] at h
      cases h
  | cons c cs =>
      rw [hrev] at h
      have hc : c = 'm' := by
        simp only [List.isPrefixOf, Bool.and_eq_true, beq_iff_eq] at h
        exact h.1.symm
      simp [List.isPrefixOf, hc]

theorem debArchOf_none_of_rpm (b : String) (arch : String) (h : rpmArchOf b = some arch) :
    debArchOf b = none := by
  have hd := not_deb_of_rpm b (rpmArchOf_ends b arch h)
  unfold debArchOf
  rw [if_neg (by simp [hd])]

/-- C8: with no direct platform-id substring in the basename, a
`_<arch>.deb` suffix is resolved through `DEB_ARCH_MAP` and a
`.<arch>.rpm` suffix through `RPM_ARCH_MAP`, and the package type comes
independently from the extension; in particular the two specification
examples classify as (`linux-aarch64`, deb) and (`linux-amd64`, rpm). -/
theorem C8_deb_rpm_suffix (f g archd pidd archr pidr : String) (dd dr : PlatformData)
    (hf : PLATFORM_PATTERNS.all (fun q => !containsStr (basename f) q.1) = true)
    (hg : PLATFORM_PATTERNS.all (fun q => !containsStr (basename g) q.1) = true)
    (h1 : debArchOf (basename f) = some archd)
    (h2 : lookupKey archd DEB_ARCH_MAP = some pidd)
    (h3 : lookupKey pidd PLATFORM_PATTERNS = some dd)
    (h4 : rpmArchOf (basename g) = some archr)
    (h5 : lookupKey archr RPM_ARCH_MAP = some pidr)
    (h6 : lookupKey pidr PLATFORM_PATTERNS = some dr) :
    detectPlatform f = some (mkPlatform pidd dd) ∧
    getAssetType (basename f) = AssetType.deb ∧
    detectPlatform g = some (mkPlatform pidr dr) ∧
    getAssetType (basename g) = AssetType.rpm ∧
    (detectPlatform "myapp_1.0.0_arm64.deb").map Platform.id = some "linux-aarch64" ∧
    getAssetType "myapp_1.0.0_arm64.deb" = AssetType.deb ∧
    (detectPlatform "myapp-1.0.0.x86_64.rpm").map Platform.id = some "linux-amd64" ∧
    getAssetType "myapp-1.0.0.x86_64.rpm" = AssetType.rpm := by
  have hfind : ∀ (b : String),
      PLATFORM_PATTERNS.all (fun q => !containsStr b q.1) = true →
      PLATFORM_PATTERNS.find? (fun q => containsStr b q.1) = none := by
    intro b hb
    apply List.find?_eq_none.mpr
    intro x hx
    have := List.all_eq_true.mp hb x hx
    simp only [Bool.not_eq_true'] at this
    simp [this]
  have hdebg : debArchOf (basename g) = none := debArchOf_none_of_rpm _ _ h4
  have hdebf : endsWithStr (basename f) ".deb" = true := debArchOf_ends _ _ h1
  have hrpmg : endsWithStr (basename g) ".rpm" = true := rpmArchOf_ends _ _ h4
  have hdebg' : endsWithStr (basename g) ".deb" = false := not_deb_of_rpm _ hrpmg
  refine ⟨?_, ?_, ?_, ?_, by decide, by decide, by decide, by decide⟩
  · unfold detectPlatform
    rw [hfind _ hf]
    simp only [debDetect, h1, h2, h3]
  · unfold getAssetType
    rw [if_pos (by simp [hdebf])]
  · unfold detectPlatform
    rw [hfind _ hg]
    simp only [debDetect, hdebg, rpmDetect, h4, h5, h6]
  · unfold getAssetType
    rw [if_neg (by simp [hdebg']), if_pos (by simp [hrpmg])]

/-- Witness for C8 at the two specification examples. -/
theorem C8_witness :
    detectPlatform "myapp_1.0.0_arm64.deb" =
      some (mkPlatform "linux-aarch64"
        { os := "Linux", osIcon := "", arch := "aarch64", archFull := "ARM64"
        , variant := none, displayName := "Linux ARM64" }) ∧
    getAssetType (basename "myapp_1.0.0_arm64.deb") = AssetType.deb ∧
    detectPlatform "myapp-1.0.0.x86_64.rpm" =
      some (mkPlatform "linux-amd64"
        { os := "Linux", osIcon := "", arch := "x86_64", archFull := "x86_64 (64-bit)"
        , variant := none, displayName := "Linux x86_64" }) ∧
    getAssetType (basename "myapp-1.0.0.x86_64.rpm") = AssetType.rpm := by
  have h := C8_deb_rpm_suffix "myapp_1.0.0_arm64.deb" "myapp-1.0.0.x86_64.rpm"
    "arm64" "linux-aarch64" "x86_64" "linux-amd64"
    { os := "Linux", osIcon := "", arch := "aarch64", archFull := "ARM64"
    , variant := none, displayName := "Linux ARM64" }
    { os := "Linux", osIcon := "", arch := "x86_64", archFull := "x86_64 (64-bit)"
    , variant := none, displayName := "Linux x86_64" }
    (by decide) (by decide) (by decide) (by decide) (by decide)
    (by decide) (by decide) (by decide)
  exact ⟨h.1, h.2.1, h.2.2.1, h.2.2.2.1⟩

/-! ## Sorting lemmas for `discoverAssets` -/

theorem mem_insSorted (x y : Asset) :
    ∀ l : List Asset, y ∈ insSorted x l → y = x ∨ y ∈ l := by
  intro l
  induction l with
  | nil =>
      intro h
      simp only [insSorted, List.mem_singleton] at h
      exact Or.inl h
  | cons a l ih =>
      intro h
      unfold insSorted at h
      by_cases hc : assetRank a < assetRank x
      · rw [if_pos hc] at h
        rcases List.mem_cons.mp h with h | h
        · exact Or.inr (List.mem_cons.mpr (Or.inl h))
        · rcases ih h with h | h
          · exact Or.inl h
          · exact Or.inr (List.mem_cons.mpr (Or.inr h))
      · rw [if_neg hc] at h
        rcases List.mem_cons.mp h with h | h
        · exact Or.inl h
        · exact Or.inr h

theorem pairwise_insSorted (x : Asset) :
    ∀ l : List Asset, l.Pairwise (fun a b => assetRank a ≤ assetRank b) →
      (insSorted x l).Pairwise (fun a b => assetRank a ≤ assetRank b) := by
  intro l
  induction l with
  | nil =>
      intro h
      simp [insSorted]
  | cons a l ih =>
      intro h
      have hp := List.pairwise_cons.mp h
      unfold insSorted
      by_cases hc : assetRank a < assetRank x
      · rw [if_pos hc]
        refine List.pairwise_cons.mpr ⟨?_, ih hp.2⟩
        intro y hy
        rcases mem_insSorted x y l hy with rfl | hyl
        · exact Nat.le_of_lt hc
        · exact hp.1 y hyl
      · rw [if_neg hc]
        refine List.pairwise_cons.mpr ⟨?_, h⟩
        intro y hy
        rcases List.mem_cons.mp hy with rfl | hyl
        · exact Nat.le_of_not_lt hc
        · exact Nat.le_trans (Nat.le_of_not_lt hc) (hp.1 y hyl)

theorem sortByPlatform_pairwise :
    ∀ l : List Asset, (sortByPlatform l).Pairwise (fun a b => assetRank a ≤ assetRank b) := by
  intro l
  induction l with
  | nil => simp [sortByPlatform]
  | cons x l ih => exact pairwise_insSorted x _ ih

theorem filter_insSorted (r : Nat) (x : Asset) :
    ∀ l : List Asset,
      (insSorted x l).filter (fun a => assetRank a = r) =
        if assetRank x = r then x :: l.filter (fun a => assetRank a = r)
        else l.filter (fun a => assetRank a = r) := by
  intro l
  induction l with
  | nil =>
      by_cases hx : assetRank x = r
      · simp [insSorted, List.filter_cons, hx]
      · simp [insSorted, List.filter_cons, hx]
  | cons y ys ih =>
      unfold insSorted
      by_cases hc : assetRank y < assetRank x
      · rw [if_pos hc, List.filter_cons, ih]
        by_cases hx : assetRank x = r
        · have hy : ¬ assetRank y = r := by
            intro hyr
            rw [hx] at hc
            rw [hyr] at hc
            exact Nat.lt_irrefl r hc
          simp [hx, hy, List.filter_cons]
        · simp [hx, List.filter_cons]
      · rw [if_neg hc, List.filter_cons, List.filter_cons]
        by_cases hx : assetRank x = r
        · simp [hx]
        · simp [hx]

theorem sortByPlatform_filter (r : Nat) :
    ∀ l : List Asset,
      (sortByPlatform l).filter (fun a => assetRank a = r) =
        l.filter (fun a => assetRank a = r) := by
  intro l
  induction l with
  | nil => rfl
  | cons x l ih =>
      show (insSorted x (sortByPlatform l)).filter _ = _
      rw [filter_insSorted, List.filter_cons]
      by_cases hx : assetRank x = r
      · rw [if_pos hx, ih]
        simp [hx]
      · rw [if_neg hx, ih]
        simp [hx]

theorem rankOf_le (id : String) : rankOf id ≤ 999 := by
  simp only [rankOf, platformOrder, rankGo]
  split_ifs <;> omega

theorem rankOf_lt_iff (id : String) : rankOf id < 999 ↔ id ∈ platformOrder := by
  simp only [rankOf, platformOrder, rankGo]
  split_ifs with h1 h2 h3 h4 h5 h6 <;> simp_all [eq_comm]

theorem sorted_partition :
    ∀ l : List Asset, l.Pairwise (fun a b => assetRank a ≤ assetRank b) →
      l = l.filter (fun a => assetRank a < 999) ++
        l.filter (fun a => ¬ (assetRank a < 999)) := by
  intro l
  induction l with
  | nil => intro _; rfl
  | cons a l ih =>
      intro h
      have hp := List.pairwise_cons.mp h
      by_cases hlt : assetRank a < 999
      · rw [List.filter_cons, List.filter_cons]
        rw [if_pos (by simpa using hlt), if_neg (by simpa using hlt)]
        rw [List.cons_append]
        exact congrArg (a :: ·) (ih hp.2)
      · have hall : ∀ y ∈ l, ¬ (assetRank y < 999) := by
          intro y hy hylt
          exact hlt (Nat.lt_of_le_of_lt (hp.1 y hy) hylt)
        have h1 : l.filter (fun a => assetRank a < 999) = [] := by
          rw [List.filter_eq_nil_iff]
          intro y hy
          simpa using hall y hy
        have h2 : l.filter (fun a => ¬ (assetRank a < 999)) = l := by
          rw [List.filter_eq_self]
          intro y hy
          simpa using hall y hy
        rw [List.filter_cons, List.filter_cons]
        rw [if_neg (by simpa using hlt), if_pos (by simpa using hlt)]
        rw [h1, h2]
        rfl

/-- C9: the discovered assets are returned sorted by the fixed display
order (ranks are nondecreasing along the output); every asset whose
platform id is missing from `platformOrder` comes after all listed ones;
and for every rank class — in particular the unlisted class — the output
preserves the relative discovery order of the classified assets (stable
sort). -/
theorem C9_discover_sorted (env : FsEnv) (files : List String) :
    (discoverAssets env files).Pairwise (fun a b => assetRank a ≤ assetRank b) ∧
    discoverAssets env files =
      (discoverAssets env files).filter (fun a => a.platform.id ∈ platformOrder) ++
        (discoverAssets env files).filter (fun a => a.platform.id ∉ platformOrder) ∧
    (∀ r : Nat, (discoverAssets env files).filter (fun a => assetRank a = r) =
      (discoverAssetsPre env files).filter (fun a => assetRank a = r)) ∧
    (discoverAssets env files).filter (fun a => a.platform.id ∉ platformOrder) =
      (discoverAssetsPre env files).filter (fun a => a.platform.id ∉ platformOrder) := by
  have hpair : (discoverAssets env files).Pairwise (fun a b => assetRank a ≤ assetRank b) :=
    sortByPlatform_pairwise (discoverAssetsPre env files)
  have hnot999 : ∀ (a : Asset), (a.platform.id ∉ platformOrder) ↔ assetRank a = 999 := by
    intro a
    have hle := rankOf_le a.platform.id
    constructor
    · intro hm
      have hnlt : ¬ (rankOf a.platform.id < 999) := fun hlt =>
        hm ((rankOf_lt_iff a.platform.id).mp hlt)
      show rankOf a.platform.id = 999
      omega
    · intro h999 hm
      have := (rankOf_lt_iff a.platform.id).mpr hm
      have h999' : rankOf a.platform.id = 999 := h999
      omega
  have hnotconv : ∀ (l : List Asset),
      l.filter (fun a => a.platform.id ∉ platformOrder) =
        l.filter (fun a => assetRank a = 999) := by
    intro l
    apply List.filter_congr
    intro a _
    exact decide_eq_decide.mpr (hnot999 a)
  refine ⟨hpair, ?_, ?_, ?_⟩
  · have hpart := sorted_partition (discoverAssets env files) hpair
    have hc1 : (discoverAssets env files).filter (fun a => assetRank a < 999) =
        (discoverAssets env files).filter (fun a => a.platform.id ∈ platformOrder) := by
      apply List.filter_congr
      intro a _
      exact decide_eq_decide.mpr (rankOf_lt_iff a.platform.id)
    have hc2 : (discoverAssets env files).filter (fun a => ¬ (assetRank a < 999)) =
        (discoverAssets env files).filter (fun a => a.platform.id ∉ platformOrder) := by
      apply List.filter_congr
      intro a _
      exact decide_eq_decide.mpr (not_congr (rankOf_lt_iff a.platform.id))
    rw [hc1, hc2] at hpart
    exact hpart
  · intro r
    exact sortByPlatform_filter r (discoverAssetsPre env files)
  · rw [hnotconv, hnotconv]
    exact sortByPlatform_filter 999 (discoverAssetsPre env files)

end Actions
